import Mathlib

/-!
Shallow embedding of the AoN importer (`src/dataloader-aon_co.js`, primary,
and the sibling importer in `src/unnamed/part_000`) together with proofs
about its specification.  JS strings are modelled as Lean `String`
(operating on `String.data : List Char`), JS `null`/`undefined` as
`Option`, and the JS numeric values that actually flow through these
functions (results of `parseInt` on matched digit runs, or `null`) as
`Option Int` / a small `NumLike` type that also covers `NaN` where the
code guards against it.
-/

namespace AonImporter

/-! ## Character classes used by the source regexes -/

/-- JS `\s` restricted to the ASCII whitespace characters (the pages this
importer scans contain no exotic Unicode whitespace). -/
def isWsJS (c : Char) : Bool :=
  c == ' ' || c == '\t' || c == '\n' || c == '\r' || c == '\x0b' || c == '\x0c'

/-- Character class `[^\n\r;•—-]` of the attack-name group in
`extractAttacksFromText` / `extractAttacks`. -/
def isNameChar (c : Char) : Bool :=
  !(c == '\n' || c == '\r' || c == ';' || c == '•' || c == '—' || c == '-')

/-- Character class `[+−-]` (ASCII plus, typographic minus U+2212, ASCII
minus) of the attack-bonus sign. -/
def isSignChar (c : Char) : Bool :=
  c == '+' || c == '−' || c == '-'

/-- Character class `[^(\n\r]` of the junk run between the bonus and the
parenthesized damage. -/
def isJunkChar (c : Char) : Bool :=
  !(c == '(' || c == '\n' || c == '\r')

/-- Character class `[^)]` of the damage group. -/
def isDmgChar (c : Char) : Bool :=
  !(c == ')')

/-- Character class `[,•;]` used by `splitTraits`. -/
def isTraitSep (c : Char) : Bool :=
  c == ',' || c == '•' || c == ';'

/-- ASCII lower-casing of one character, modelling JS `toLowerCase` on the
ASCII names this importer produces. -/
def lowerAsciiChar (c : Char) : Char :=
  if 65 ≤ c.toNat && c.toNat ≤ 90 then Char.ofNat (c.toNat + 32) else c

/-- JS `s.toLowerCase()` (ASCII model). -/
def lowerAscii (s : String) : String :=
  String.mk (s.data.map lowerAsciiChar)

/-! ## Text utilities (`clean`, `splitTraits`, `normalizePlus`, `parseInt`) -/

/-- Helper of `clean`: JS `replace(/\s+/g, " ")`, collapsing every maximal
whitespace run into a single space.  The flag records whether the previous
character belonged to a whitespace run. -/
def collapseWsAux : Bool → List Char → List Char
  | _, [] => []
  | prevWs, c :: cs =>
    if isWsJS c then
      if prevWs then collapseWsAux true cs else ' ' :: collapseWsAux true cs
    else c :: collapseWsAux false cs

/-- JS `trim` on a string whose only whitespace is `' '` (which is the case
after `collapseWsAux`). -/
def trimSpaces (cs : List Char) : List Char :=
  ((cs.dropWhile (· == ' ')).reverse.dropWhile (· == ' ')).reverse

/-- Source `clean(s)`: `(s || "").replace(/\s+/g, " ").trim()`;
the call sites never pass `null`, so the argument is a plain string. -/
def clean (s : String) : String :=
  String.mk (trimSpaces (collapseWsAux false s.data))

/-- Helper of `jsSplitSeps`: JS `String.split` on the regex `[,•;]+`.
Fields are the segments between maximal separator runs; a leading or
trailing run contributes an empty field, consecutive separators do not. -/
def splitSepAux : Bool → List Char → List Char → List String
  | _, acc, [] => [String.mk acc.reverse]
  | inSep, acc, c :: cs =>
    if isTraitSep c then
      if inSep then splitSepAux true acc cs
      else String.mk acc.reverse :: splitSepAux true [] cs
    else splitSepAux false (c :: acc) cs

/-- JS `s.split(/[,•;]+/)`. -/
def jsSplitSeps (s : String) : List String :=
  splitSepAux false [] s.data

/-- Source `splitTraits(s)`:
`s.split(/[,•;]+/).map(x => clean(x)).filter(Boolean)`.  `filter(Boolean)`
keeps exactly the non-empty strings. -/
def splitTraits (s : String) : List String :=
  ((jsSplitSeps s).map clean).filter (fun t => t != "")

/-- JS `s.replace("−", "-")`: string-valued `replace` rewrites only the
first occurrence. -/
def replaceFirstMinusSign : List Char → List Char
  | [] => []
  | c :: cs => if c == '−' then '-' :: cs else c :: replaceFirstMinusSign cs

/-- Source `normalizePlus(s)`: `(s || "").replace("−", "-")`; the
call sites always pass the matched bonus string, never `null`. -/
def normalizePlus (s : String) : String :=
  String.mk (replaceFirstMinusSign s.data)

/-- JS `s.replace("+", "")` (and part_000's `s.replace(/[+]/, "")`): both
remove only the first `'+'`. -/
def removeFirstPlus : List Char → List Char
  | [] => []
  | c :: cs => if c == '+' then cs else c :: removeFirstPlus cs

/-- Numeric value of a run of decimal digits. -/
def digitsToNat : Nat → List Char → Nat
  | acc, [] => acc
  | acc, c :: cs => digitsToNat (acc * 10 + (c.toNat - 48)) cs

/-- Leading-digit-run parse used by `parseIntJS`; `none` models `NaN`. -/
def parseDigits (cs : List Char) : Option Int :=
  let ds := cs.takeWhile Char.isDigit
  if ds.isEmpty then none else some (Int.ofNat (digitsToNat 0 ds))

/-- JS `parseInt(s, 10)`: skip leading whitespace, accept one optional
ASCII sign, read the leading digit run and ignore the rest; `NaN` (here
`none`) when no digits follow. -/
def parseIntJS (s : String) : Option Int :=
  match s.data.dropWhile isWsJS with
  | '+' :: rest => parseDigits rest
  | '-' :: rest => (parseDigits rest).map (fun n => -n)
  | cs => parseDigits cs

/-! ## Attack entries and the merge (`coalesceAttacks`) -/

/-- One candidate attack entry as pushed by the scanners: `name` is the
cleaned name, `attack` the sign-normalized bonus (`none` models a missing
`attack` property), `damage` the cleaned damage or `null`. -/
structure AttackEntry where
  name : String
  attack : Option String
  damage : Option String
deriving DecidableEq, Repr

/-- JS `x || d` for a string-or-null value `x`: the default replaces both
`null` and the empty string. -/
def jsOrStr : Option String → String → String
  | some s, d => if s == "" then d else s
  | none, d => d

/-- The merge key: `(a.name || "").toLowerCase()` — on a plain string the
`|| ""` is the identity, so this is just lower-casing. -/
def attackKey (e : AttackEntry) : String :=
  lowerAscii e.name

/-- The comparison value of an entry inside `coalesceAttacks`:
`parseInt((a.attack || "0").replace("+", ""), 10)`. -/
def bonusNum (e : AttackEntry) : Option Int :=
  parseIntJS (String.mk (removeFirstPlus (jsOrStr e.attack "0").data))

/-- JS `>` on two possibly-NaN numbers: any comparison with `NaN` is
false. -/
def jsGt : Option Int → Option Int → Bool
  | some a, some b => decide (b < a)
  | _, _ => false

/-- JS `Map.set` on a key that is already present: replace the value in
place, keeping the original insertion position. -/
def mapSet (m : List (String × AttackEntry)) (k : String) (v : AttackEntry) :
    List (String × AttackEntry) :=
  m.map (fun p => if p.1 == k then (k, v) else p)

/-- One iteration of the `for (const a of list)` loop of
`coalesceAttacks`: insert a fresh key at the end, otherwise keep the entry
with the strictly larger parsed bonus (ties keep the stored one). -/
def coalesceStep (m : List (String × AttackEntry)) (a : AttackEntry) :
    List (String × AttackEntry) :=
  let k := attackKey a
  match m.find? (fun p => p.1 == k) with
  | none => m ++ [(k, a)]
  | some prev => if jsGt (bonusNum a) (bonusNum prev.2) then mapSet m k a else m

/-- Source `coalesceAttacks(list)` (both files agree on its
semantics): fold the candidates through a JS `Map` keyed by lower-cased
name and return the values in insertion order. -/
def coalesceAttacks (l : List AttackEntry) : List AttackEntry :=
  (l.foldl coalesceStep []).map Prod.snd

/-! ## The attack regex scanner

The two regexes
`(Melee|Ranged)\s+([^\n\r;•—-]+?)\s+([+−-]\d{1,2})(?:[^(\n\r]*)\(([^)]+)\)`
(detailed phase) and `(Melee|Ranged)\s+([^\n\r;•—-]+?)\s+([+−-]\d{1,2})`
(fallback phase) of `extractAttacksFromText`, with flags `ig`, are
embedded as an explicit backtracking matcher specialised to this pattern
shape.  part_000's `extractAttacks` uses the same patterns with `\d+`
instead of `\d{1,2}`; the digit bound is therefore a parameter
(`digitLimit`).  Backtracking notes, justifying the deterministic parts:

* `\s+` before the sign and the runs `[^(\n\r]*`, `([^)]+)` are greedy,
  and the character required right after each of them (a sign character,
  `'('`, `')'` respectively) is excluded from the repeated class, so only
  the maximal run can be followed by that character: these pieces are
  deterministic (`takeWhile`/`dropWhile`).
* `\d{1,2}` prefers two digits; a shorter choice moves the junk run's
  start one digit left but the junk run absorbs digits anyway, so the
  two-digit preference is simply `take`.
* The name group `+?` is lazy (shortest first) and the `\s+` before it is
  greedy (longest first); both are searched explicitly (`nameLoop`,
  `wsSplitLoop`).
-/

/-- Result of matching the tail of the pattern (everything after the name
group): the captured bonus, the captured damage (`none` in the fallback
phase), and the remaining input after the match. -/
structure TailRes where
  bonus : List Char
  damage : Option (List Char)
  rest : List Char
deriving DecidableEq, Repr

/-- Match `(?:[^(\n\r]*)\(([^)]+)\)` at the head of `r4`. -/
def tryDamage (bonus : List Char) (r4 : List Char) : Option TailRes :=
  match r4.dropWhile isJunkChar with
  | '(' :: r6 =>
    let dmg := r6.takeWhile isDmgChar
    if dmg.isEmpty then none
    else
      match r6.dropWhile isDmgChar with
      | ')' :: r8 => some ⟨bonus, some dmg, r8⟩
      | _ => none
  | _ => none

/-- The digits the bounded greedy repetition keeps: at most `k` for
`\d{1,k}`, all of them for `\d+`. -/
def digitsTaken (digitLimit : Option Nat) (digits : List Char) : List Char :=
  match digitLimit with
  | some k => digits.take k
  | none => digits

/-- The digits the bounded repetition leaves in the input. -/
def digitsLeft (digitLimit : Option Nat) (digits : List Char) : List Char :=
  match digitLimit with
  | some k => digits.drop k
  | none => []

/-- Match the digit run (bounded by `digitLimit`) and, in the detailed
phase, the junk-plus-damage suffix.  `s` is the already-matched sign
character, `r2` the input after it. -/
def tryBonus (digitLimit : Option Nat) (detailed : Bool) (s : Char)
    (r2 : List Char) : Option TailRes :=
  let digits := r2.takeWhile Char.isDigit
  let r3 := r2.dropWhile Char.isDigit
  if digits.isEmpty then none
  else if detailed then
    tryDamage (s :: digitsTaken digitLimit digits) (digitsLeft digitLimit digits ++ r3)
  else some ⟨s :: digitsTaken digitLimit digits, none, digitsLeft digitLimit digits ++ r3⟩

/-- Match `\s+([+−-]\d…)…` at the head of `cs` (the input right after the
name group). -/
def tryTail (digitLimit : Option Nat) (detailed : Bool) (cs : List Char) :
    Option TailRes :=
  if (cs.takeWhile isWsJS).isEmpty then none
  else
    match cs.dropWhile isWsJS with
    | [] => none
    | s :: r2 => if isSignChar s then tryBonus digitLimit detailed s r2 else none

/-- A full match: the four captured groups that the scanner uses (the
keyword group is discarded by the source) and the rest of the input. -/
structure MatchCore where
  name : List Char
  bonus : List Char
  damage : Option (List Char)
  rest : List Char
deriving DecidableEq, Repr

/-- Lazy search for the name group `([^\n\r;•—-]+?)`: try the tail after
the shortest name first and extend one character at a time. -/
def nameLoop (digitLimit : Option Nat) (detailed : Bool) :
    List Char → List Char → Option MatchCore
  | acc, cs =>
    match tryTail digitLimit detailed cs with
    | some t => some ⟨acc.reverse, t.bonus, t.damage, t.rest⟩
    | none =>
      match cs with
      | [] => none
      | c :: rest =>
        if isNameChar c then nameLoop digitLimit detailed (c :: acc) rest
        else none

/-- Start the name group at `cs`: it must begin with at least one
name-class character. -/
def tryNameStart (digitLimit : Option Nat) (detailed : Bool)
    (cs : List Char) : Option MatchCore :=
  match cs with
  | [] => none
  | c :: rest =>
    if isNameChar c then nameLoop digitLimit detailed [c] rest else none

/-- Greedy search for the `\s+` run before the name: the whole whitespace
run is preferred; on failure the run hands characters back to the name one
at a time (whitespace other than `\n`/`\r` is a legal name character), but
keeps at least one.  `revTaken` holds the currently taken run reversed. -/
def wsSplitLoop (digitLimit : Option Nat) (detailed : Bool) :
    List Char → List Char → Option MatchCore
  | revTaken, nameStart =>
    match tryNameStart digitLimit detailed nameStart with
    | some r => some r
    | none =>
      match revTaken with
      | [] => none
      | [_] => none
      | w :: ws => wsSplitLoop digitLimit detailed ws (w :: nameStart)

/-- Case-insensitive literal match (the `i` flag); returns the rest of the
input on success. -/
def matchCI : List Char → List Char → Option (List Char)
  | [], cs => some cs
  | _ :: _, [] => none
  | p :: ps, c :: cs => if lowerAsciiChar c == p then matchCI ps cs else none

/-- The keyword alternation `(Melee|Ranged)`: the two branches are
mutually exclusive at any position, so no backtracking between them is
needed. -/
def matchKeyword (cs : List Char) : Option (List Char) :=
  match matchCI "melee".data cs with
  | some r => some r
  | none => matchCI "ranged".data cs

/-- Attempt the whole pattern anchored at the head of `cs`. -/
def matchAt (digitLimit : Option Nat) (detailed : Bool) (cs : List Char) :
    Option MatchCore :=
  match matchKeyword cs with
  | none => none
  | some afterKw =>
    if (afterKw.takeWhile isWsJS).isEmpty then none
    else
      wsSplitLoop digitLimit detailed (afterKw.takeWhile isWsJS).reverse
        (afterKw.dropWhile isWsJS)

/-- The `while ((m = re.exec(t)) !== null)` loop of a `g`-flagged regex:
find the leftmost match, continue after its end.  Every match consumes at
least one character, so `fuel = length + 1` never runs out. -/
def scanLoop (digitLimit : Option Nat) (detailed : Bool) :
    Nat → List Char → List MatchCore
  | 0, _ => []
  | fuel + 1, cs =>
    match matchAt digitLimit detailed cs with
    | some m => m :: scanLoop digitLimit detailed fuel m.rest
    | none =>
      match cs with
      | [] => []
      | _ :: rest => scanLoop digitLimit detailed fuel rest

/-- Build the pushed entry from a match, as in the source:
`{ name: clean(m[2]), attack: normalizePlus(m[3]), damage: clean(m[4]) }`
(damage `null` in the fallback phase). -/
def matchToEntry (m : MatchCore) : AttackEntry :=
  { name := clean (String.mk m.name)
  , attack := some (normalizePlus (String.mk m.bonus))
  , damage := m.damage.map (fun d => clean (String.mk d)) }

/-- All candidate entries of the detailed phase of
`extractAttacksFromText` (digit bound 2, from `\d{1,2}`). -/
def phase1Entries (t : String) : List AttackEntry :=
  (scanLoop (some 2) true (t.data.length + 1) t.data).map matchToEntry

/-- All candidate entries of the fallback phase of
`extractAttacksFromText`. -/
def phase2Entries (t : String) : List AttackEntry :=
  (scanLoop (some 2) false (t.data.length + 1) t.data).map matchToEntry

/-- Source `extractAttacksFromText(t)` of `src/dataloader-aon_co.js`: the
detailed scan, the fallback scan when the former found nothing, then the
merge. -/
def extractAttacksFromText (t : String) : List AttackEntry :=
  let attacks := phase1Entries t
  coalesceAttacks (if attacks.isEmpty then phase2Entries t else attacks)

/-- Source `extractAttacks` of `src/unnamed/part_000`, applied to the text
blocks produced by `textBlocks` (the DOM splitting itself is a browser
capability and is not embedded; the block list is the input).  It scans
the first 40 blocks with the unbounded-digit patterns (`\d+`), falls back
to the simple pattern when the detailed one found nothing anywhere, and
merges. -/
def extractAttacks (blocks : List String) : List AttackEntry :=
  let bs := blocks.take 40
  let attacks :=
    bs.flatMap (fun b => (scanLoop none true (b.data.length + 1) b.data).map matchToEntry)
  coalesceAttacks
    (if attacks.isEmpty then
      bs.flatMap (fun b => (scanLoop none false (b.data.length + 1) b.data).map matchToEntry)
    else attacks)

/-! ## Generic list lemmas -/

theorem all_filter_self {α : Type} (p : α → Bool) :
    ∀ l : List α, (l.filter p).all p = true := by
  intro l
  induction l with
  | nil => rfl
  | cons a l ih =>
    by_cases h : p a = true
    · simp [List.filter, h, ih]
    · simp [List.filter, h, ih]

/-! ## C3: traits splitting -/

/-- C3 (counterexample): `splitTraits` applies no deduplication, so a
traits line that repeats an entry yields a duplicated traits sequence,
contradicting the claim that the output never contains duplicates. -/
theorem splitTraits_duplicates_survive :
    splitTraits "Fiend, Fiend" = ["Fiend", "Fiend"]
    ∧ ¬ (splitTraits "Fiend, Fiend").Nodup := by
  exact ⟨by decide, by decide⟩

/-- C3 (amended): for every input the traits produced by `splitTraits`
contain no empty strings and preserve the order of the source line, and
the line remainder `"Fiend, Evil, Large"` yields exactly
`["Fiend","Evil","Large"]`; duplicate entries of the source line survive,
since deduplication is applied only on the trait-element extraction path,
not on `splitTraits`. -/
theorem splitTraits_no_empty_and_order :
    (∀ s : String, (splitTraits s).all (fun t => t != "") = true)
    ∧ splitTraits "Fiend, Evil, Large" = ["Fiend", "Evil", "Large"] := by
  constructor
  · intro s; exact all_filter_self _ _
  · decide

/-! ## Lemmas about the merge -/

theorem coalesce_pair (e1 e2 : AttackEntry) (h : attackKey e1 = attackKey e2) :
    coalesceAttacks [e1, e2] =
      if jsGt (bonusNum e2) (bonusNum e1) then [e2] else [e1] := by
  have hbeq : (attackKey e1 == attackKey e2) = true := by
    rw [h]; exact beq_self_eq_true _
  simp only [coalesceAttacks, List.foldl, coalesceStep, List.find?_nil,
    List.nil_append, List.find?_cons, hbeq, mapSet, List.map_cons, List.map_nil]
  cases hj : jsGt (bonusNum e2) (bonusNum e1) with
  | false => simp
  | true => simp [hbeq, eq_of_beq hbeq]

theorem mem_snd_mapSet {m : List (String × AttackEntry)} {k v e}
    (he : e ∈ (mapSet m k v).map Prod.snd) : e ∈ m.map Prod.snd ∨ e = v := by
  rcases List.mem_map.mp he with ⟨q, hq, hqe⟩
  have hq' : q ∈ m.map (fun p => if p.1 == k then (k, v) else p) := by
    simpa only [mapSet] using hq
  rcases List.mem_map.mp hq' with ⟨p, hp, hpq⟩
  by_cases hk : (p.1 == k) = true
  · right; rw [← hqe, ← hpq]; simp [hk]
  · left
    exact List.mem_map.mpr ⟨p, hp, by rw [← hqe, ← hpq]; simp [hk]⟩

theorem mem_snd_coalesceStep {m a e}
    (he : e ∈ (coalesceStep m a).map Prod.snd) : e ∈ m.map Prod.snd ∨ e = a := by
  simp only [coalesceStep] at he
  split at he
  · simp only [List.map_append, List.map_cons, List.map_nil,
      List.mem_append, List.mem_singleton] at he
    exact he
  · split at he
    · exact mem_snd_mapSet he
    · exact Or.inl he

theorem mem_coalesce_foldl :
    ∀ (l : List AttackEntry) (m) (e : AttackEntry),
      e ∈ (l.foldl coalesceStep m).map Prod.snd → e ∈ m.map Prod.snd ∨ e ∈ l := by
  intro l
  induction l with
  | nil => intro m e he; rw [List.foldl_nil] at he; exact Or.inl he
  | cons a l ih =>
    intro m e he
    rw [List.foldl_cons] at he
    rcases ih _ _ he with h | h
    · rcases mem_snd_coalesceStep h with h' | h'
      · exact Or.inl h'
      · exact Or.inr (by simp [h'])
    · exact Or.inr (List.mem_cons_of_mem _ h)

theorem mem_of_mem_coalesce {l : List AttackEntry} {e}
    (he : e ∈ coalesceAttacks l) : e ∈ l := by
  rcases mem_coalesce_foldl l [] e (by simpa [coalesceAttacks] using he) with h | h
  · simp at h
  · exact h

/-- The invariant of the JS `Map` inside `coalesceAttacks`: keys are
pairwise distinct and every stored pair's key is the lower-cased name of
its value. -/
def KeysOk (m : List (String × AttackEntry)) : Prop :=
  (m.map Prod.fst).Nodup ∧ ∀ p ∈ m, p.1 = attackKey p.2

theorem mapSet_map_fst (m : List (String × AttackEntry)) (k v) :
    (mapSet m k v).map Prod.fst = m.map Prod.fst := by
  induction m with
  | nil => rfl
  | cons p m ih =>
    simp only [mapSet, List.map_cons] at ih ⊢
    have htail : ∀ (a : String) (b : AttackEntry), (a, b) ∈ m →
        (if a = k then (k, v) else (a, b)).1 = a := by
      intro a b _
      by_cases hak : a = k
      · simp [hak]
      · simp [hak]
    by_cases hk : (p.1 == k) = true
    · have hpk : p.1 = k := eq_of_beq hk
      simp [hk, hpk, ih]
      exact htail
    · simp [hk, ih]
      exact htail

theorem keysOk_coalesceStep {m} (h : KeysOk m) (a : AttackEntry) :
    KeysOk (coalesceStep m a) := by
  simp only [coalesceStep]
  split
  · next hf =>
    have hnot : ∀ p ∈ m, ¬ (p.1 == attackKey a) = true := by
      intro p hp
      have := List.find?_eq_none.mp hf p hp
      simpa using this
    constructor
    · rw [List.map_append]
      refine List.Nodup.append h.1 (List.nodup_singleton _) ?_
      intro x hx hx2
      simp only [List.map_cons, List.map_nil, List.mem_singleton] at hx2
      rcases List.mem_map.mp hx with ⟨p, hp, hpx⟩
      exact hnot p hp (by rw [hpx, hx2]; exact beq_self_eq_true _)
    · intro p hp
      rcases List.mem_append.mp hp with h1 | h1
      · exact h.2 p h1
      · simp only [List.mem_singleton] at h1; rw [h1]
  · next prev hf =>
    split
    · constructor
      · rw [mapSet_map_fst]; exact h.1
      · intro p hp
        have hp' : p ∈ m.map (fun q => if q.1 == attackKey a then (attackKey a, a) else q) := by
          simpa only [mapSet] using hp
        rcases List.mem_map.mp hp' with ⟨q, hq, hqp⟩
        by_cases hk : (q.1 == attackKey a) = true
        · rw [← hqp]; simp [hk]
        · rw [← hqp]; simp only [hk, if_false]; exact h.2 q hq
    · exact h

theorem keysOk_foldl :
    ∀ (l : List AttackEntry) (m), KeysOk m → KeysOk (l.foldl coalesceStep m) := by
  intro l
  induction l with
  | nil => intro m h; exact h
  | cons a l ih => intro m h; rw [List.foldl_cons]; exact ih _ (keysOk_coalesceStep h a)

theorem coalesce_keys_nodup (l : List AttackEntry) :
    ((coalesceAttacks l).map attackKey).Nodup := by
  have h := keysOk_foldl l [] ⟨List.nodup_nil, by simp⟩
  have hmap : ((l.foldl coalesceStep []).map Prod.snd).map attackKey
      = (l.foldl coalesceStep []).map Prod.fst := by
    rw [List.map_map]
    apply List.map_congr_left
    intro p hp
    exact (h.2 p hp).symm
  simpa [coalesceAttacks, hmap] using h.1

/-! ## C2, C4, C10: merge properties -/

/-- Comparison value as the claim words it: the attack bonus parsed as an
integer with its sign stripped (every sign character removed before
parsing). -/
def specSignStrippedBonus (s : String) : Int :=
  (parseIntJS (String.mk (s.data.filter (fun c => !(isSignChar c))))).getD 0

/-- C2 (counterexample): for the same name, a candidate with bonus `"-5"`
has the larger sign-stripped value (5 > 3) yet the merge keeps the later
`"+3"` candidate, because the code strips only the `'+'` and compares
signed values. -/
theorem coalesce_sign_stripped_counterexample :
    coalesceAttacks [⟨"claw", some "-5", none⟩, ⟨"claw", some "+3", none⟩]
      = [⟨"claw", some "+3", none⟩]
    ∧ specSignStrippedBonus "-5" > specSignStrippedBonus "+3" := by
  exact ⟨by decide, by decide⟩

/-- C2 (amended): when two candidates share a case-insensitive name, the
merge keeps the one whose bonus, parsed as a signed integer after removing
a leading `'+'` (a `'-'` is kept, so negative bonuses compare as
negative), is numerically larger; on a tie, or when the comparison fails,
it keeps the first encountered.  In particular `"+18"` beats `"+12"` for
the same name. -/
theorem coalesce_keeps_larger_signed_bonus :
    (∀ e1 e2 : AttackEntry, lowerAscii e1.name = lowerAscii e2.name →
      coalesceAttacks [e1, e2] =
        if jsGt (bonusNum e2) (bonusNum e1) then [e2] else [e1])
    ∧ coalesceAttacks [⟨"claw", some "+18", some "2d8+9 piercing"⟩,
        ⟨"claw", some "+12", some "2d8+9 piercing"⟩]
      = [⟨"claw", some "+18", some "2d8+9 piercing"⟩] := by
  constructor
  · intro e1 e2 hn
    exact coalesce_pair e1 e2 hn
  · decide

/-- Witness for C2's amended theorem at the spec's `+18` / `+12`
example. -/
theorem coalesce_keeps_larger_signed_bonus_witness :
    coalesceAttacks [⟨"claw", some "+12", none⟩, ⟨"claw", some "+18", none⟩]
      = [⟨"claw", some "+18", none⟩] := by
  rw [coalesce_keeps_larger_signed_bonus.1 ⟨"claw", some "+12", none⟩
    ⟨"claw", some "+18", none⟩ rfl]
  decide

/-- C4: the merged attack sequence never contains two entries whose names
agree after lower-casing — both for `coalesceAttacks` on any candidate
list and for the full text extraction. -/
theorem attacks_case_insensitive_unique :
    (∀ l : List AttackEntry,
      ((coalesceAttacks l).map (fun e => lowerAscii e.name)).Nodup)
    ∧ ∀ t : String,
      ((extractAttacksFromText t).map (fun e => lowerAscii e.name)).Nodup := by
  constructor
  · intro l
    simpa [attackKey] using coalesce_keys_nodup l
  · intro t
    simpa [extractAttacksFromText, attackKey] using
      coalesce_keys_nodup
        (if (phase1Entries t).isEmpty then phase2Entries t else phase1Entries t)

/-- C10: a candidate whose bonus is absent or empty is compared as bonus
0 (`(a.attack || "0")`), so a later same-named candidate replaces it
exactly when that candidate's parsed bonus is strictly greater than 0. -/
theorem coalesce_empty_bonus_as_zero :
    ∀ e1 e2 : AttackEntry, lowerAscii e1.name = lowerAscii e2.name →
      (e1.attack = none ∨ e1.attack = some "") →
      bonusNum e1 = some 0
      ∧ coalesceAttacks [e1, e2]
        = (if jsGt (bonusNum e2) (some 0) then [e2] else [e1]) := by
  intro e1 e2 hn hb
  have h0 : bonusNum e1 = some 0 := by
    have hd : bonusNum e1
        = parseIntJS (String.mk (removeFirstPlus (jsOrStr e1.attack "0").data)) := rfl
    rcases hb with h | h <;> rw [hd, h] <;> decide
  refine ⟨h0, ?_⟩
  rw [coalesce_pair e1 e2 hn, h0]

/-! ## Scanner shape lemmas -/

/-- Shape of every captured bonus group: one sign character followed by
digits only. -/
def BonusShape (b : List Char) : Prop :=
  ∃ s ds, b = s :: ds ∧ isSignChar s = true ∧ ds.all Char.isDigit = true

theorem all_takeWhile {α : Type} (p : α → Bool) :
    ∀ l : List α, (l.takeWhile p).all p = true := by
  intro l
  induction l with
  | nil => rfl
  | cons a l ih =>
    by_cases h : p a = true
    · simp [List.takeWhile_cons, h, ih]
    · simp [List.takeWhile_cons, h]

theorem all_take {α : Type} (p : α → Bool) :
    ∀ (l : List α) (k : Nat), l.all p = true → (l.take k).all p = true := by
  intro l
  induction l with
  | nil => intro k _; simp
  | cons a l ih =>
    intro k h
    simp only [List.all_cons, Bool.and_eq_true] at h
    cases k with
    | zero => rfl
    | succ k => simp [List.take, h.1, ih k h.2]

theorem digitsTaken_all (dl : Option Nat) (ds : List Char)
    (h : ds.all Char.isDigit = true) : (digitsTaken dl ds).all Char.isDigit = true := by
  cases dl with
  | none => exact h
  | some k => exact all_take _ _ _ h

theorem tryDamage_spec {b r4 r} (h : tryDamage b r4 = some r) :
    r.bonus = b := by
  simp only [tryDamage] at h
  split at h
  · split at h
    · exact absurd h (by simp)
    · split at h
      · cases h; rfl
      · exact absurd h (by simp)
  · exact absurd h (by simp)

theorem tryBonus_spec {dl det s r2 r} (h : tryBonus dl det s r2 = some r) :
    (∃ ds, r.bonus = s :: ds ∧ ds.all Char.isDigit = true)
    ∧ (det = false → r.damage = none) := by
  simp only [tryBonus] at h
  split at h
  · exact absurd h (by simp)
  · split at h
    · next hdet =>
      constructor
      · exact ⟨_, tryDamage_spec h, digitsTaken_all _ _ (all_takeWhile _ _)⟩
      · intro hfalse; rw [hdet] at hfalse; cases hfalse
    · cases h
      exact ⟨⟨_, rfl, digitsTaken_all _ _ (all_takeWhile _ _)⟩, fun _ => rfl⟩

theorem tryTail_spec {dl det cs r} (h : tryTail dl det cs = some r) :
    BonusShape r.bonus ∧ (det = false → r.damage = none) := by
  simp only [tryTail] at h
  split at h
  · exact absurd h (by simp)
  · split at h
    · exact absurd h (by simp)
    · split at h
      · next hs =>
        rcases tryBonus_spec h with ⟨⟨ds, hds, hall⟩, hdmg⟩
        exact ⟨⟨_, ds, hds, hs, hall⟩, hdmg⟩
      · exact absurd h (by simp)

theorem nameLoop_spec (dl : Option Nat) (det : Bool) :
    ∀ (cs acc : List Char) (r : MatchCore),
      nameLoop dl det acc cs = some r →
      BonusShape r.bonus ∧ (det = false → r.damage = none) := by
  intro cs
  induction cs with
  | nil =>
    intro acc r h
    simp only [nameLoop] at h
    exact absurd h (by simp)
  | cons c cs' ih =>
    intro acc r h
    simp only [nameLoop] at h
    split at h
    · next t ht =>
      cases h
      exact tryTail_spec ht
    · split at h
      · exact ih _ _ h
      · exact absurd h (by simp)

theorem tryNameStart_spec {dl det cs r} (h : tryNameStart dl det cs = some r) :
    BonusShape r.bonus ∧ (det = false → r.damage = none) := by
  simp only [tryNameStart] at h
  split at h
  · exact absurd h (by simp)
  · split at h
    · exact nameLoop_spec _ _ _ _ _ h
    · exact absurd h (by simp)

theorem wsSplitLoop_spec (dl : Option Nat) (det : Bool) :
    ∀ (revTaken nameStart : List Char) (r : MatchCore),
      wsSplitLoop dl det revTaken nameStart = some r →
      BonusShape r.bonus ∧ (det = false → r.damage = none) := by
  intro revTaken
  induction revTaken with
  | nil =>
    intro nameStart r h
    simp only [wsSplitLoop] at h
    split at h
    · next ht => cases h; exact tryNameStart_spec ht
    · exact absurd h (by simp)
  | cons w ws ih =>
    intro nameStart r h
    cases ws with
    | nil =>
      simp only [wsSplitLoop] at h
      split at h
      · next ht => cases h; exact tryNameStart_spec ht
      · exact absurd h (by simp)
    | cons w1 ws1 =>
      simp only [wsSplitLoop] at h
      split at h
      · next ht => cases h; exact tryNameStart_spec ht
      · exact ih _ _ h

theorem matchAt_spec {dl det cs m} (h : matchAt dl det cs = some m) :
    BonusShape m.bonus ∧ (det = false → m.damage = none) := by
  simp only [matchAt] at h
  split at h
  · exact absurd h (by simp)
  · split at h
    · exact absurd h (by simp)
    · exact wsSplitLoop_spec _ _ _ _ _ h

theorem scanLoop_spec (dl : Option Nat) (det : Bool) :
    ∀ (fuel : Nat) (cs : List Char) (m : MatchCore),
      m ∈ scanLoop dl det fuel cs →
      BonusShape m.bonus ∧ (det = false → m.damage = none) := by
  intro fuel
  induction fuel with
  | zero => intro cs m h; simp [scanLoop] at h
  | succ fuel ih =>
    intro cs m h
    simp only [scanLoop] at h
    split at h
    · next mc hmc =>
      rcases List.mem_cons.mp h with h1 | h1
      · subst h1; exact matchAt_spec hmc
      · exact ih _ _ h1
    · split at h
      · simp at h
      · exact ih _ _ h

/-! ## No-typographic-minus lemmas -/

theorem digits_not_mem_minus {ds : List Char}
    (h : ds.all Char.isDigit = true) : '−' ∉ ds := by
  intro hmem
  have := List.all_eq_true.mp h '−' hmem
  exact absurd this (by decide)

theorem replaceFirst_no_minus :
    ∀ l : List Char, '−' ∉ l → replaceFirstMinusSign l = l := by
  intro l
  induction l with
  | nil => intro _; rfl
  | cons c cs ih =>
    intro h
    have hcne : c ≠ '−' := by
      intro he; exact h (by rw [he]; exact List.mem_cons_self _ _)
    have hc : (c == '−') = false := beq_eq_false_iff_ne.mpr hcne
    have htail : '−' ∉ cs := fun hm => h (List.mem_cons_of_mem _ hm)
    simp [replaceFirstMinusSign, hc, ih htail]

theorem noMinus_of_shape {s : Char} {ds : List Char} (_hs : isSignChar s = true)
    (hd : ds.all Char.isDigit = true) :
    '−' ∉ replaceFirstMinusSign (s :: ds) := by
  by_cases hsm : (s == '−') = true
  · have hstep : replaceFirstMinusSign (s :: ds) = '-' :: ds := by
      simp [replaceFirstMinusSign, hsm]
    rw [hstep]
    intro hmem
    rcases List.mem_cons.mp hmem with h1 | h1
    · exact absurd h1 (by decide)
    · exact digits_not_mem_minus hd h1
  · have h1 : (s == '−') = false := by simpa using hsm
    have hstep : replaceFirstMinusSign (s :: ds) = s :: ds := by
      simp [replaceFirstMinusSign, h1, replaceFirst_no_minus ds (digits_not_mem_minus hd)]
    rw [hstep]
    intro hmem
    rcases List.mem_cons.mp hmem with h2 | h2
    · exact (ne_of_beq_false h1) h2.symm
    · exact digits_not_mem_minus hd h2

/-- Every entry of the merged extraction came from one of the two scan
phases. -/
theorem mem_extract_cases {t : String} {e : AttackEntry}
    (he : e ∈ extractAttacksFromText t) :
    e ∈ phase1Entries t ∨ e ∈ phase2Entries t := by
  have h := mem_of_mem_coalesce
    (l := if (phase1Entries t).isEmpty then phase2Entries t else phase1Entries t)
    (by simpa [extractAttacksFromText] using he)
  split at h
  · exact Or.inr h
  · exact Or.inl h

/-! ## C5, C8, C9: the scanner's claims -/

/-- C5: the relaxed fallback pattern is used exactly when the detailed
pattern produced no candidates, and in that case every produced entry has
an absent damage field. -/
theorem attack_scan_two_phase :
    ∀ t : String,
      (phase1Entries t ≠ [] →
        extractAttacksFromText t = coalesceAttacks (phase1Entries t))
      ∧ (phase1Entries t = [] →
          extractAttacksFromText t = coalesceAttacks (phase2Entries t)
          ∧ ∀ e ∈ extractAttacksFromText t, e.damage = none) := by
  intro t
  constructor
  · intro h
    have hne : (phase1Entries t).isEmpty = false := by
      cases hp : phase1Entries t with
      | nil => exact absurd hp h
      | cons a l => rfl
    simp [extractAttacksFromText, hne]
  · intro h
    have hempty : (phase1Entries t).isEmpty = true := by rw [h]; rfl
    constructor
    · simp [extractAttacksFromText, hempty]
    · intro e he
      rcases mem_extract_cases he with h1 | h1
      · rw [h] at h1; simp at h1
      · rcases List.mem_map.mp h1 with ⟨m, hm, hme⟩
        have hd := (scanLoop_spec _ _ _ _ _ hm).2 rfl
        rw [← hme]
        simp [matchToEntry, hd]

/-- Witness for C5 at a text that the detailed pattern cannot match. -/
theorem attack_scan_two_phase_witness :
    extractAttacksFromText "Melee jaws +7"
      = coalesceAttacks (phase2Entries "Melee jaws +7") := by
  exact ((attack_scan_two_phase "Melee jaws +7").2 (by decide)).1

/-- C8: every extracted attack entry's bonus string is free of the
typographic minus U+2212 (the captured sign is a single character, so the
first-occurrence `replace` suffices), and a bonus matched with the
typographic minus is emitted with the ASCII minus. -/
theorem attackBonus_no_typographic_minus :
    (∀ (t : String) (e : AttackEntry) (b : String),
      e ∈ extractAttacksFromText t → e.attack = some b →
      b.data.contains '−' = false)
    ∧ normalizePlus "−5" = "-5" := by
  constructor
  · intro t e b he hb
    have hcase : e ∈ phase1Entries t ∨ e ∈ phase2Entries t := mem_extract_cases he
    have hgoal : ∀ (dl : Option Nat) (det : Bool) (fuel : Nat) (cs : List Char),
        e ∈ (scanLoop dl det fuel cs).map matchToEntry →
        b.data.contains '−' = false := by
      intro dl det fuel cs h1
      rcases List.mem_map.mp h1 with ⟨m, hm, hme⟩
      rcases (scanLoop_spec _ _ _ _ _ hm).1 with ⟨s, ds, hbds, hs, hdall⟩
      rw [← hme] at hb
      have hb' : b = normalizePlus (String.mk m.bonus) := by
        simp only [matchToEntry, Option.some.injEq] at hb
        exact hb.symm
      rw [hb']
      show (replaceFirstMinusSign m.bonus).contains '−' = false
      rw [hbds]
      simpa using noMinus_of_shape hs hdall
    rcases hcase with h1 | h1
    · exact hgoal _ _ _ _ h1
    · exact hgoal _ _ _ _ h1
  · decide

/-- Witness for C8 at a typographic-minus bonus. -/
theorem attackBonus_no_typographic_minus_witness :
    (("-1" : String).data.contains '−' = false) := by
  exact attackBonus_no_typographic_minus.1 "Melee a −1 (d)"
    ⟨"a", some "-1", some "d"⟩ "-1" (by decide) rfl

/-- C9 (counterexample): the two scans disagree on a three-digit bonus —
`extractAttacksFromText` (pattern `\d{1,2}`) captures `"+12"` while
part_000's `extractAttacks` (pattern `\d+`) captures `"+123"`. -/
theorem extract_equivalence_counterexample :
    extractAttacksFromText "Melee claw +123 (1d4)"
      ≠ extractAttacks ["Melee claw +123 (1d4)"] := by
  decide

/-! ### C9 amended: digit-limit insensitivity on triple-digit-free blocks

The only difference between the two scans is `\d{1,2}` versus `\d+`,
i.e. `digitLimit = some 2` versus `none`.  The two limits act identically
on every digit run of length at most two, so the scans agree on any block
whose text nowhere contains three consecutive decimal digits.  The proof
threads that input property through the whole matcher: every list the
matcher recurses on is a contiguous suffix of (a sublist of) the input. -/

/-- Input-level side condition: the character list nowhere contains three
consecutive decimal digits. -/
def noTripleDigit : List Char → Bool
  | a :: b :: c :: rest =>
    !(a.isDigit && b.isDigit && c.isDigit) && noTripleDigit (b :: c :: rest)
  | _ => true

theorem noTriple_tail {c : Char} {cs : List Char}
    (h : noTripleDigit (c :: cs) = true) : noTripleDigit cs = true := by
  cases cs with
  | nil => rfl
  | cons b cs1 =>
    cases cs1 with
    | nil => rfl
    | cons c2 cs2 =>
      simp only [noTripleDigit, Bool.and_eq_true] at h
      exact h.2

theorem noTriple_suffix {l₂ l₁ : List Char} (hs : l₂ <:+ l₁)
    (h : noTripleDigit l₁ = true) : noTripleDigit l₂ = true := by
  obtain ⟨t, ht⟩ := hs
  subst ht
  induction t with
  | nil => simpa using h
  | cons a t ih => exact ih (noTriple_tail h)

theorem takeWhile_digits_le_two {cs : List Char}
    (h : noTripleDigit cs = true) : (cs.takeWhile Char.isDigit).length ≤ 2 := by
  cases cs with
  | nil => simp
  | cons a cs1 =>
    cases cs1 with
    | nil =>
      by_cases da : Char.isDigit a = true <;> simp [List.takeWhile_cons, da]
    | cons b cs2 =>
      cases cs2 with
      | nil =>
        by_cases da : Char.isDigit a = true <;>
          by_cases db : Char.isDigit b = true <;>
            simp [List.takeWhile_cons, da, db]
      | cons c cs3 =>
        by_cases da : Char.isDigit a = true
        · by_cases db : Char.isDigit b = true
          · by_cases dc : Char.isDigit c = true
            · exfalso
              have hfalse : noTripleDigit (a :: b :: c :: cs3) = false := by
                simp [noTripleDigit, da, db, dc]
              rw [h] at hfalse
              exact absurd hfalse (by decide)
            · simp [List.takeWhile_cons, da, db, dc]
          · simp [List.takeWhile_cons, da, db]
        · simp [List.takeWhile_cons, da]

/-! #### The match rest is a suffix of the input (unbounded-digit scan) -/

theorem matchCI_suffix :
    ∀ (ps cs r : List Char), matchCI ps cs = some r → r <:+ cs := by
  intro ps
  induction ps with
  | nil =>
    intro cs r h
    simp only [matchCI, Option.some.injEq] at h
    rw [← h]
  | cons p ps ih =>
    intro cs r h
    cases cs with
    | nil => exact absurd h (by simp [matchCI])
    | cons c cs' =>
      simp only [matchCI] at h
      split at h
      · exact (ih _ _ h).trans (List.suffix_cons c cs')
      · exact absurd h (by simp)

theorem matchKeyword_suffix {cs r : List Char}
    (h : matchKeyword cs = some r) : r <:+ cs := by
  simp only [matchKeyword] at h
  split at h
  · next heq => cases h; exact matchCI_suffix _ _ _ heq
  · exact matchCI_suffix _ _ _ h

theorem tryDamage_rest_suffix {b r4 : List Char} {r : TailRes}
    (h : tryDamage b r4 = some r) : r.rest <:+ r4 := by
  simp only [tryDamage] at h
  split at h
  · next r6 heq =>
    split at h
    · exact absurd h (by simp)
    · split at h
      · next r8 heq2 =>
        cases h
        have h1 : r8 <:+ r6.dropWhile isDmgChar := by
          rw [heq2]; exact List.suffix_cons _ _
        have h2 : r6 <:+ r4.dropWhile isJunkChar := by
          rw [heq]; exact List.suffix_cons _ _
        exact ((h1.trans (List.dropWhile_suffix _)).trans h2).trans
          (List.dropWhile_suffix _)
      · exact absurd h (by simp)
  · exact absurd h (by simp)

theorem tryBonus_rest_suffix {det : Bool} {s : Char} {r2 : List Char}
    {r : TailRes} (h : tryBonus none det s r2 = some r) : r.rest <:+ r2 := by
  simp only [tryBonus, digitsLeft, List.nil_append] at h
  split at h
  · exact absurd h (by simp)
  · split at h
    · exact (tryDamage_rest_suffix h).trans (List.dropWhile_suffix _)
    · cases h
      exact List.dropWhile_suffix _

theorem tryTail_rest_suffix {det : Bool} {cs : List Char} {r : TailRes}
    (h : tryTail none det cs = some r) : r.rest <:+ cs := by
  simp only [tryTail] at h
  split at h
  · exact absurd h (by simp)
  · split at h
    · exact absurd h (by simp)
    · next s r2 heq =>
      split at h
      · have h2 := tryBonus_rest_suffix h
        have h3 : r2 <:+ cs.dropWhile isWsJS := by
          rw [heq]; exact List.suffix_cons _ _
        exact (h2.trans h3).trans (List.dropWhile_suffix _)
      · exact absurd h (by simp)

theorem nameLoop_rest_suffix {det : Bool} :
    ∀ (cs acc : List Char) (r : MatchCore),
      nameLoop none det acc cs = some r → r.rest <:+ cs := by
  intro cs
  induction cs with
  | nil =>
    intro acc r h
    simp only [nameLoop] at h
    exact absurd h (by simp)
  | cons c cs' ih =>
    intro acc r h
    simp only [nameLoop] at h
    split at h
    · next t ht => cases h; exact tryTail_rest_suffix ht
    · split at h
      · exact (ih _ _ h).trans (List.suffix_cons c cs')
      · exact absurd h (by simp)

theorem tryNameStart_rest_suffix {det : Bool} {cs : List Char} {r : MatchCore}
    (h : tryNameStart none det cs = some r) : r.rest <:+ cs := by
  simp only [tryNameStart] at h
  split at h
  · exact absurd h (by simp)
  · next c rest =>
    split at h
    · exact (nameLoop_rest_suffix _ _ _ h).trans (List.suffix_cons c rest)
    · exact absurd h (by simp)

theorem wsSplitLoop_rest_suffix {det : Bool} :
    ∀ (revTaken nameStart : List Char) (r : MatchCore),
      wsSplitLoop none det revTaken nameStart = some r →
      r.rest <:+ revTaken.reverse ++ nameStart := by
  intro revTaken
  induction revTaken with
  | nil =>
    intro nameStart r h
    simp only [wsSplitLoop] at h
    split at h
    · next ht =>
      cases h
      exact (tryNameStart_rest_suffix ht).trans (List.suffix_append _ _)
    · exact absurd h (by simp)
  | cons w ws ih =>
    intro nameStart r h
    cases ws with
    | nil =>
      simp only [wsSplitLoop] at h
      split at h
      · next ht =>
        cases h
        exact (tryNameStart_rest_suffix ht).trans (List.suffix_append _ _)
      · exact absurd h (by simp)
    | cons w1 ws1 =>
      simp only [wsSplitLoop] at h
      split at h
      · next ht =>
        cases h
        exact (tryNameStart_rest_suffix ht).trans (List.suffix_append _ _)
      · have hrec := ih _ _ h
        have heq : (w1 :: ws1).reverse ++ (w :: nameStart)
            = (w :: w1 :: ws1).reverse ++ nameStart := by
          simp [List.reverse_cons, List.append_assoc]
        rw [heq] at hrec
        exact hrec

theorem matchAt_rest_suffix {det : Bool} {cs : List Char} {m : MatchCore}
    (h : matchAt none det cs = some m) : m.rest <:+ cs := by
  simp only [matchAt] at h
  split at h
  · exact absurd h (by simp)
  · next afterKw heq =>
    split at h
    · exact absurd h (by simp)
    · have h1 := wsSplitLoop_rest_suffix _ _ _ h
      rw [List.reverse_reverse,
        List.takeWhile_append_dropWhile isWsJS afterKw] at h1
      exact h1.trans (matchKeyword_suffix heq)

/-! #### Digit-limit insensitivity under the no-triple-digit condition -/

theorem tryBonus_eq {det : Bool} {s : Char} {r2 : List Char}
    (h : noTripleDigit r2 = true) :
    tryBonus (some 2) det s r2 = tryBonus none det s r2 := by
  have hle : (r2.takeWhile Char.isDigit).length ≤ 2 := takeWhile_digits_le_two h
  have ht : digitsTaken (some 2) (r2.takeWhile Char.isDigit)
      = digitsTaken none (r2.takeWhile Char.isDigit) := by
    simp only [digitsTaken]
    exact List.take_of_length_le hle
  have hl : digitsLeft (some 2) (r2.takeWhile Char.isDigit)
      = digitsLeft none (r2.takeWhile Char.isDigit) := by
    simp only [digitsLeft]
    exact List.drop_eq_nil_of_le hle
  simp only [tryBonus, ht, hl]

theorem tryTail_eq {det : Bool} {cs : List Char} (h : noTripleDigit cs = true) :
    tryTail (some 2) det cs = tryTail none det cs := by
  simp only [tryTail]
  by_cases he : (cs.takeWhile isWsJS).isEmpty = true
  · simp [he]
  · simp only [he, if_false]
    cases hd : cs.dropWhile isWsJS with
    | nil => rfl
    | cons s r2 =>
      by_cases hs : isSignChar s = true
      · simp only [hs, if_true]
        apply tryBonus_eq
        have hsr : noTripleDigit (s :: r2) = true :=
          noTriple_suffix (by rw [← hd]; exact List.dropWhile_suffix _) h
        exact noTriple_tail hsr
      · simp [hs]

theorem nameLoop_eq (det : Bool) :
    ∀ (cs acc : List Char), noTripleDigit cs = true →
      nameLoop (some 2) det acc cs = nameLoop none det acc cs := by
  intro cs
  induction cs with
  | nil => intro acc _; rfl
  | cons c cs' ih =>
    intro acc h
    simp only [nameLoop]
    rw [tryTail_eq h]
    cases ht : tryTail none det (c :: cs') with
    | some t => simp [ht]
    | none =>
      simp only [ht]
      by_cases hc : isNameChar c = true
      · simp only [hc, if_true]
        exact ih (c :: acc) (noTriple_tail h)
      · simp [hc]

theorem tryNameStart_eq {det : Bool} {cs : List Char}
    (h : noTripleDigit cs = true) :
    tryNameStart (some 2) det cs = tryNameStart none det cs := by
  cases cs with
  | nil => rfl
  | cons c rest =>
    simp only [tryNameStart]
    by_cases hc : isNameChar c = true
    · simp only [hc, if_true]
      exact nameLoop_eq det rest [c] (noTriple_tail h)
    · simp [hc]

theorem wsSplitLoop_eq (det : Bool) :
    ∀ (revTaken nameStart : List Char),
      noTripleDigit (revTaken.reverse ++ nameStart) = true →
      wsSplitLoop (some 2) det revTaken nameStart
        = wsSplitLoop none det revTaken nameStart := by
  intro revTaken
  induction revTaken with
  | nil =>
    intro nameStart h
    have hn : noTripleDigit nameStart = true :=
      noTriple_suffix (List.suffix_append _ _) h
    simp only [wsSplitLoop]
    rw [tryNameStart_eq hn]
  | cons w ws ih =>
    intro nameStart h
    have hn : noTripleDigit nameStart = true :=
      noTriple_suffix (List.suffix_append _ _) h
    cases ws with
    | nil =>
      simp only [wsSplitLoop]
      rw [tryNameStart_eq hn]
    | cons w1 ws1 =>
      simp only [wsSplitLoop]
      rw [tryNameStart_eq hn]
      cases hns : tryNameStart none det nameStart with
      | some r => rfl
      | none =>
        have heq : (w1 :: ws1).reverse ++ (w :: nameStart)
            = (w :: w1 :: ws1).reverse ++ nameStart := by
          simp [List.reverse_cons, List.append_assoc]
        exact ih (w :: nameStart) (by rw [heq]; exact h)

theorem matchAt_eq {det : Bool} {cs : List Char} (h : noTripleDigit cs = true) :
    matchAt (some 2) det cs = matchAt none det cs := by
  simp only [matchAt]
  cases hk : matchKeyword cs with
  | none => rfl
  | some afterKw =>
    have hkw : noTripleDigit afterKw = true :=
      noTriple_suffix (matchKeyword_suffix hk) h
    by_cases he : (afterKw.takeWhile isWsJS).isEmpty = true
    · simp [he]
    · simp only [he, if_false]
      apply wsSplitLoop_eq
      rw [List.reverse_reverse, List.takeWhile_append_dropWhile isWsJS afterKw]
      exact hkw

theorem scanLoop_eq (det : Bool) :
    ∀ (fuel : Nat) (cs : List Char), noTripleDigit cs = true →
      scanLoop (some 2) det fuel cs = scanLoop none det fuel cs := by
  intro fuel
  induction fuel with
  | zero => intro cs _; rfl
  | succ fuel ih =>
    intro cs h
    simp only [scanLoop]
    rw [matchAt_eq h]
    cases hm : matchAt none det cs with
    | some m =>
      show m :: scanLoop (some 2) det fuel m.rest
          = m :: scanLoop none det fuel m.rest
      rw [ih m.rest (noTriple_suffix (matchAt_rest_suffix hm) h)]
    | none =>
      cases cs with
      | nil => rfl
      | cons c cs' => exact ih cs' (noTriple_tail h)

/-- Specialisation of part_000's `extractAttacks` to a single block (the
take-40 prefix and the per-block flatMap collapse). -/
theorem extractAttacks_single (t : String) :
    extractAttacks [t] =
      coalesceAttacks
        (if ((scanLoop none true (t.data.length + 1) t.data).map matchToEntry).isEmpty
         then (scanLoop none false (t.data.length + 1) t.data).map matchToEntry
         else (scanLoop none true (t.data.length + 1) t.data).map matchToEntry) := by
  simp [extractAttacks]

/-- C9 (amended): the two attack scans implement the same pattern except
the bonus digit bound (`\d{1,2}` in `extractAttacksFromText`, `\d+` in
part_000's `extractAttacks`), so on every single block whose text nowhere
contains three consecutive decimal digits — then every digit run fits in
the two digits the bounded pattern can capture — the two extractions
produce the same merged entries; they diverge when a bonus carries three
or more digits (see the counterexample at `"+123"`). -/
theorem extract_agreement_no_triple_digit :
    ∀ t : String, noTripleDigit t.data = true →
      extractAttacksFromText t = extractAttacks [t] := by
  intro t h
  have e1 : phase1Entries t
      = (scanLoop none true (t.data.length + 1) t.data).map matchToEntry := by
    unfold phase1Entries
    rw [scanLoop_eq true _ _ h]
  have e2 : phase2Entries t
      = (scanLoop none false (t.data.length + 1) t.data).map matchToEntry := by
    unfold phase2Entries
    rw [scanLoop_eq false _ _ h]
  have elhs : extractAttacksFromText t
      = coalesceAttacks
          (if (phase1Entries t).isEmpty then phase2Entries t
           else phase1Entries t) := rfl
  rw [elhs, e1, e2, extractAttacks_single]

/-- Witness for C9's amended theorem at the spec's example block. -/
theorem extract_agreement_no_triple_digit_witness :
    extractAttacksFromText "Melee claw +18 (2d8+9 piercing)"
      = extractAttacks ["Melee claw +18 (2d8+9 piercing)"] := by
  exact extract_agreement_no_triple_digit "Melee claw +18 (2d8+9 piercing)"
    (by decide)

/-- Witness for C10 at a concrete empty-bonus candidate. -/
theorem coalesce_empty_bonus_as_zero_witness :
    bonusNum ⟨"claw", some "", none⟩ = some 0
    ∧ coalesceAttacks [⟨"claw", some "", none⟩, ⟨"claw", some "+3", none⟩]
      = [⟨"claw", some "+3", none⟩] := by
  have h := coalesce_empty_bonus_as_zero ⟨"claw", some "", none⟩
    ⟨"claw", some "+3", none⟩ rfl (Or.inr rfl)
  exact ⟨h.1, by rw [h.2]; decide⟩

/-! ## Records, normalizer, retrieval and the entry point

The parsers' numeric slots only ever hold `null` or a `parseInt` result on
a matched digit run (always a genuine integer); `NumLike` additionally
models `NaN` because `normalize` defends against it. -/

/-- A JS number-or-null slot: `null`, `NaN`, or an integer. -/
inductive NumLike where
  | null : NumLike
  | nan : NumLike
  | int : Int → NumLike
deriving DecidableEq, Repr

/-- JS `Number.isFinite`: true exactly on actual finite numbers. -/
def numberIsFinite : NumLike → Bool
  | NumLike.int _ => true
  | _ => false

/-- JS global `isFinite`: coerces its argument first, and `Number(null)`
is `0`, so `isFinite(null)` is `true`. -/
def isFiniteGlobal : NumLike → Bool
  | NumLike.null => true
  | NumLike.nan => false
  | NumLike.int _ => true

/-- Expression `Number.isFinite(x) ? x : null`, as used by `normalize`. -/
def finiteOrNull : NumLike → Option Int
  | NumLike.int i => some i
  | _ => none

/-- The intermediate record assembled by `parseHtml` / `parseText` before
normalization: every field may still be `null` (or, for the containers,
not an array). -/
structure RawRecord where
  name : Option String
  level : NumLike
  traits : Option (List String)
  ac : NumLike
  hp : NumLike
  speed : Option String
  attacks : Option (List AttackEntry)

/-- The canonical output record produced by `normalize`. -/
structure StatRecord where
  name : String
  level : Option Int
  traits : List String
  ac : Option Int
  hp : Option Int
  speed : Option String
  attacks : List AttackEntry
deriving DecidableEq, Repr

/-- JS `x || null` on a string-or-null slot: the empty string is falsy. -/
def jsOrNullStr : Option String → Option String
  | some s => if s == "" then none else some s
  | none => none

/-- Source `normalize(obj)`: apply all output defaults
(`name || "Unknown"`, `Number.isFinite` guards, `Array.isArray` guards,
`speed || null`). -/
def normalize (o : RawRecord) : StatRecord :=
  { name := jsOrStr o.name "Unknown"
  , level := finiteOrNull o.level
  , traits := o.traits.getD []
  , ac := finiteOrNull o.ac
  , hp := finiteOrNull o.hp
  , speed := jsOrNullStr o.speed
  , attacks := o.attacks.getD [] }

/-- JS truthiness of `out.name` (a string or `null`). -/
def jsTruthyName : Option String → Bool
  | some s => !(s == "")
  | none => false

/-- The condition of `importFromLink`'s sanity check, exactly as written:
`!out.name && !isFinite(out.level) && !isFinite(out.hp)` with the global
`isFinite`. -/
def sanityCheckFails (o : RawRecord) : Bool :=
  !(jsTruthyName o.name) && !(isFiniteGlobal o.level) && !(isFiniteGlobal o.hp)

/-- Outcome of the direct `fetch`: a success with a content type and a
body, or a failure (a thrown network error and a non-`ok` status behave
identically — both fall through to the mirror). -/
inductive DirectResult where
  | ok (contentType : String) (body : String)
  | fail
deriving DecidableEq

/-- Outcome of the mirror-route `fetch`: a success body, or a failure
(non-`ok` status or rejection), which ends retrieval. -/
inductive MirrorResult where
  | ok (body : String)
  | fail
deriving DecidableEq

/-- The network environment a call runs against. -/
structure FetchEnv where
  direct : DirectResult
  mirror : MirrorResult

/-- Payload value (kind and body) returned by `fetchAoN`. -/
inductive Payload where
  | html (body : String)
  | text (body : String)
deriving DecidableEq

/-- The failure conditions `importFromLink` can surface: `"Invalid URL"`,
retrieval exhausted (the mirror's `"Fetch failed via mirror"` throw or its
rejection), and `"Parse failed"`. -/
inductive ImportError where
  | invalidInput
  | retrievalFailure
  | parseFailure
deriving DecidableEq

/-- Boolean prefix test on character lists. -/
def listPrefixEq : List Char → List Char → Bool
  | [], _ => true
  | _ :: _, [] => false
  | a :: as, b :: bs => a == b && listPrefixEq as bs

/-- Substring search used for JS `String.includes`. -/
def containsSub (needle : List Char) : List Char → Bool
  | [] => listPrefixEq needle []
  | c :: rest => listPrefixEq needle (c :: rest) || containsSub needle rest

/-- JS `s.includes(sub)`. -/
def jsIncludes (s sub : String) : Bool :=
  containsSub sub.data s.data

/-- Source `fetchAoN(rawUrl)`.  WHATWG URL parsing (`new URL`)
is a host capability, so the input arrives pre-classified: `none` stands
for a raw string the URL parser rejects (the `catch` that throws
`"Invalid URL"`).  Direct route first; on its failure the single mirror
route; `kind` is `"html"` only when the direct content type contains
`"text/html"`, mirrored content is always `"text"`. -/
def fetchAoN (env : FetchEnv) (url : Option String) : Except ImportError Payload :=
  match url with
  | none => Except.error ImportError.invalidInput
  | some _ =>
    match env.direct with
    | DirectResult.ok ct body =>
      if jsIncludes ct "text/html" then Except.ok (Payload.html body)
      else Except.ok (Payload.text body)
    | DirectResult.fail =>
      match env.mirror with
      | MirrorResult.ok body => Except.ok (Payload.text body)
      | MirrorResult.fail => Except.error ImportError.retrievalFailure

/-- Source `importFromLink(url)` of `src/dataloader-aon_co.js`, parameterized
by the two parsers (`parseHtml` needs a DOM, so both are inputs here):
fetch, dispatch on the kind, run the sanity check, normalize. -/
def importFromLink (env : FetchEnv) (parseHtmlF parseTextF : String → RawRecord)
    (url : Option String) : Except ImportError StatRecord :=
  match fetchAoN env url with
  | Except.error e => Except.error e
  | Except.ok (Payload.html b) =>
    let out := parseHtmlF b
    if sanityCheckFails out then Except.error ImportError.parseFailure
    else Except.ok (normalize out)
  | Except.ok (Payload.text b) =>
    let out := parseTextF b
    if sanityCheckFails out then Except.error ImportError.parseFailure
    else Except.ok (normalize out)

/-! ## C1, C6, C7: entry point, normalizer, retrieval -/

/-- C1 (code-bug evidence): the sanity check uses the global `isFinite`,
and `isFinite(null)` is `true`, so a page yielding no name, no level and
no hit points does not trigger the ParseFailure condition — the record
with every field absent sails through the check and `importFromLink`
returns the fully-defaulted record instead of failing, contradicting the
code's own comment ("must have a name or level or HP"). -/
theorem importFromLink_empty_page_returns_record :
    sanityCheckFails ⟨none, NumLike.null, none, NumLike.null, NumLike.null, none, none⟩ = false
    ∧ importFromLink ⟨DirectResult.ok "text/plain" "", MirrorResult.fail⟩
        (fun _ => ⟨none, NumLike.null, none, NumLike.null, NumLike.null, none, none⟩)
        (fun _ => ⟨none, NumLike.null, none, NumLike.null, NumLike.null, none, none⟩)
        (some "https://2e.aonprd.com/Monsters.aspx?ID=123")
      = Except.ok ⟨"Unknown", none, [], none, none, none, []⟩ := by
  exact ⟨rfl, rfl⟩

/-- C6: the normalizer always yields a non-empty name (the literal
placeholder `"Unknown"` when the extracted name is `null` or empty),
maps non-finite numeric slots to absence and integers to themselves,
drops an empty or `null` speed, and always emits sequences for traits and
attacks (empty when the raw slot was not an array). -/
theorem normalize_defaults :
    ∀ o : RawRecord,
      ((normalize o).name == "") = false
      ∧ ((o.name = none ∨ o.name = some "") → (normalize o).name = "Unknown")
      ∧ (numberIsFinite o.level = false → (normalize o).level = none)
      ∧ (∀ i : Int, o.level = NumLike.int i → (normalize o).level = some i)
      ∧ (numberIsFinite o.ac = false → (normalize o).ac = none)
      ∧ (∀ i : Int, o.ac = NumLike.int i → (normalize o).ac = some i)
      ∧ (numberIsFinite o.hp = false → (normalize o).hp = none)
      ∧ (∀ i : Int, o.hp = NumLike.int i → (normalize o).hp = some i)
      ∧ ((o.speed = none ∨ o.speed = some "") → (normalize o).speed = none)
      ∧ (o.traits = none → (normalize o).traits = [])
      ∧ (∀ ts, o.traits = some ts → (normalize o).traits = ts)
      ∧ (o.attacks = none → (normalize o).attacks = [])
      ∧ (∀ l, o.attacks = some l → (normalize o).attacks = l) := by
  intro o
  refine ⟨?_, ?_, ?_, ?_, ?_, ?_, ?_, ?_, ?_, ?_, ?_, ?_, ?_⟩
  · cases hn : o.name with
    | none => simp [normalize, jsOrStr, hn]
    | some s =>
      by_cases hs : (s == "") = true
      · simp [normalize, jsOrStr, hn, hs]
      · simp only [normalize, jsOrStr, hn, hs, if_false]
        simpa using hs
  · intro h
    rcases h with h | h <;> simp [normalize, jsOrStr, h]
  · intro h
    cases hl : o.level with
    | null => simp [normalize, finiteOrNull, hl]
    | nan => simp [normalize, finiteOrNull, hl]
    | int i => rw [hl] at h; exact absurd h (by simp [numberIsFinite])
  · intro i h; simp [normalize, finiteOrNull, h]
  · intro h
    cases hl : o.ac with
    | null => simp [normalize, finiteOrNull, hl]
    | nan => simp [normalize, finiteOrNull, hl]
    | int i => rw [hl] at h; exact absurd h (by simp [numberIsFinite])
  · intro i h; simp [normalize, finiteOrNull, h]
  · intro h
    cases hl : o.hp with
    | null => simp [normalize, finiteOrNull, hl]
    | nan => simp [normalize, finiteOrNull, hl]
    | int i => rw [hl] at h; exact absurd h (by simp [numberIsFinite])
  · intro i h; simp [normalize, finiteOrNull, h]
  · intro h
    rcases h with h | h <;> simp [normalize, jsOrNullStr, h]
  · intro h; simp [normalize, h]
  · intro ts h; simp [normalize, h]
  · intro h; simp [normalize, h]
  · intro l h; simp [normalize, h]

/-- Witness for C6 at a concrete partially-populated record. -/
theorem normalize_defaults_witness :
    (normalize ⟨some "", NumLike.nan, none, NumLike.null, NumLike.int 12, some "", none⟩).name = "Unknown"
    ∧ (normalize ⟨some "", NumLike.nan, none, NumLike.null, NumLike.int 12, some "", none⟩).level = none
    ∧ (normalize ⟨some "", NumLike.nan, none, NumLike.null, NumLike.int 12, some "", none⟩).hp = some 12
    ∧ (normalize ⟨some "", NumLike.nan, none, NumLike.null, NumLike.int 12, some "", none⟩).speed = none
    ∧ (normalize ⟨some "", NumLike.nan, none, NumLike.null, NumLike.int 12, some "", none⟩).traits = []
    ∧ (normalize ⟨some "", NumLike.nan, none, NumLike.null, NumLike.int 12, some "", none⟩).attacks = [] := by
  obtain ⟨h1, h2, h3, h4, h5, h6, h7, h8, h9, h10, h11, h12, h13⟩ :=
    normalize_defaults ⟨some "", NumLike.nan, none, NumLike.null, NumLike.int 12, some "", none⟩
  exact ⟨h2 (Or.inr rfl), h3 rfl, h8 12 rfl, h9 (Or.inr rfl), h10 rfl, h12 rfl⟩

/-- C7: when the direct route succeeds the mirror route is irrelevant to
the result; when the direct route fails the mirror body is used (as text);
and when both routes fail the import fails with the RetrievalFailure
condition and no record is produced. -/
theorem fetch_direct_first_then_mirror :
    ∀ (pH pT : String → RawRecord) (u ct body mirrorBody : String)
      (m m' : MirrorResult),
      (importFromLink ⟨DirectResult.ok ct body, m⟩ pH pT (some u)
        = importFromLink ⟨DirectResult.ok ct body, m'⟩ pH pT (some u))
      ∧ fetchAoN ⟨DirectResult.fail, MirrorResult.ok mirrorBody⟩ (some u)
          = Except.ok (Payload.text mirrorBody)
      ∧ fetchAoN ⟨DirectResult.fail, MirrorResult.fail⟩ (some u)
          = Except.error ImportError.retrievalFailure
      ∧ importFromLink ⟨DirectResult.fail, MirrorResult.fail⟩ pH pT (some u)
          = Except.error ImportError.retrievalFailure := by
  intro pH pT u ct body mirrorBody m m'
  exact ⟨rfl, rfl, rfl, rfl⟩

end AonImporter
